import Mathlib

/-!
Verification development for the incremental synchronization and
note-merging engine of the joplin-plugin-omnivore-sync plugin.

The TypeScript sources are shallowly embedded as Lean functions:

* string-processing code (dedup keys, fragment split/join, the
  decodeAndCleanText artifact decoder) is embedded on `List Char`
  with `String` wrappers, mirroring the JavaScript regex passes
  character by character;
* the stable `Array.prototype.sort` is modelled by `List.insertionSort`
  (any stable sort agreeing with a total comparator yields the same list);
* ISO-8601 timestamps, which the code compares only through
  `new Date(...)` values, are modelled by their epoch value as a `Nat`;
* the luxon timezone-and-format collaborator
  (`DateTime.fromISO(..).setZone(tz).toFormat(..)`) is an external
  library and is passed in as an abstract function `zoneDay`;
* the Joplin settings store is modelled as an explicit record of the
  three persisted values, and `performSync` as a state transformer with
  an explicit injected failure point for each fallible collaborator call.
-/

namespace OmnivoreSync

/-! ## Character classes and basic string helpers -/

/-- Whitespace as recognised by JavaScript `trim` (the characters that can
occur in the fragments handled here). -/
def isJsWhitespace (c : Char) : Bool :=
  c == ' ' || c == '\t' || c == '\n' || c == '\r' || c == '\x0b' ||
  c == '\x0c' || c == '\u00A0' || c == '\uFEFF' || c == '\u2028' || c == '\u2029'

/-- Hexadecimal digit class `[0-9A-Fa-f]` used by the entity and percent
regexes in `decodeAndCleanText`. -/
def isHexDigit (c : Char) : Bool :=
  c.isDigit || (decide ('A' ≤ c) && decide (c ≤ 'F')) || (decide ('a' ≤ c) && decide (c ≤ 'f'))

/-- Value of a hexadecimal digit. -/
def hexVal (c : Char) : Nat :=
  if c.isDigit then c.toNat - 48
  else if decide ('A' ≤ c) && decide (c ≤ 'F') then c.toNat - 55
  else c.toNat - 87

/-- Value of a run of decimal digits (the prefix accepted by
`parseInt(s, 10)`). -/
def decDigitsToNat (ds : List Char) : Nat :=
  ds.foldl (fun a c => 10 * a + (c.toNat - 48)) 0

/-- Value of a run of hexadecimal digits (`parseInt(s, 16)`). -/
def hexDigitsToNat (ds : List Char) : Nat :=
  ds.foldl (fun a c => 16 * a + hexVal c) 0

/-- JavaScript `String.fromCharCode`: the code unit is reduced mod 2^16.
Code units that are not Unicode scalar values (lone surrogates) have no
Lean `Char` counterpart; `Char.ofNat` maps them to the NUL character. -/
def fromCharCode (n : Nat) : Char := Char.ofNat (n % 65536)

/-- JavaScript `s.trim() === ''` test: true when every character is
whitespace. -/
def isBlankStr (s : String) : Bool := s.data.all isJsWhitespace

/-- JavaScript `s.trim()`. -/
def trimJs (s : String) : String :=
  ⟨((s.data.dropWhile isJsWhitespace).reverse.dropWhile isJsWhitespace).reverse⟩

/-- `sep.startsWithL cs`: does `cs` start with the separator `sep`? -/
def startsWithL : List Char → List Char → Bool
  | [], _ => true
  | _ :: _, [] => false
  | a :: as, b :: bs => a == b && startsWithL as bs

/-- One pass of JavaScript `String.prototype.split` with a non-empty string
separator: left-to-right, non-overlapping.  `fuel` bounds the scan; the
callers pass the length of the input, which suffices because every step
consumes at least one character. -/
def splitAux (sep : List Char) : Nat → List Char → List Char → List (List Char)
  | 0, cur, cs => [cur.reverse ++ cs]
  | Nat.succ fuel, cur, cs =>
    if startsWithL sep cs then
      cur.reverse :: splitAux sep fuel [] (cs.drop sep.length)
    else
      match cs with
      | [] => [cur.reverse]
      | c :: rest => splitAux sep fuel (c :: cur) rest

/-- JavaScript `s.split(sep)` for a non-empty separator. -/
def splitOnStr (sep : String) (s : String) : List String :=
  (splitAux sep.data s.data.length [] s.data).map (fun l => ⟨l⟩)

/-- The fragment delimiter used throughout the plugin. -/
def FRAG_DELIM : String := "\n\n---\n\n"

/-- JavaScript `parts.join(FRAG_DELIM)`. -/
def joinDelim : List String → String
  | [] => ""
  | [s] => s
  | s :: rest => s ++ FRAG_DELIM ++ joinDelim rest

/-! ## The embedded timestamp token and the dedup key

`appendHighlightToNote` (src/sync.ts, lines 316-353) extracts from each
fragment the first match of the regex `\((\d{4}-\d{2}-\d{2} \d{2}:\d{2})\)`
(or the empty string when there is none) together with the first line. -/

/-- Try to match the timestamp token `(YYYY-MM-DD HH:MM)` at the head of the
character list, returning the inner capture group. -/
def matchTsAt : List Char → Option (List Char)
  | '(' :: y1 :: y2 :: y3 :: y4 :: '-' :: m1 :: m2 :: '-' :: d1 :: d2 :: ' ' ::
      h1 :: h2 :: ':' :: n1 :: n2 :: ')' :: _ =>
    if [y1, y2, y3, y4, m1, m2, d1, d2, h1, h2, n1, n2].all Char.isDigit then
      some [y1, y2, y3, y4, '-', m1, m2, '-', d1, d2, ' ', h1, h2, ':', n1, n2]
    else none
  | _ => none

/-- First match of the timestamp regex in the list (JavaScript
`s.match(...)`, scanning left to right). -/
def findTs : List Char → Option (List Char)
  | [] => none
  | c :: rest =>
    match matchTsAt (c :: rest) with
    | some t => some t
    | none => findTs rest

/-- `s.match(/\((\d{4}-\d{2}-\d{2} \d{2}:\d{2})\)/)?.[1] || ''` -/
def dedupTime (s : String) : String :=
  match findTs s.data with
  | some t => ⟨t⟩
  | none => ""

/-- `s.split('\n')[0]` -/
def firstLine (s : String) : String := ⟨s.data.takeWhile (fun c => c != '\n')⟩

/-- The content-derived dedup key of a fragment: embedded creation-timestamp
token plus first line. -/
def dedupKey (s : String) : String × String := (dedupTime s, firstLine s)

/-- The membership test of `appendHighlightToNote`: an existing fragment `h`
matches the candidate `c` when both components of the dedup key agree. -/
def fragMatches (h c : String) : Bool :=
  dedupTime h == dedupTime c && firstLine h == firstLine c

/-! ## Fragment lists and the two append operations -/

/-- `note.body ? note.body.split('\n\n---\n\n').filter(h => h.trim() !== '') : []` -/
def parseHighlights (body : String) : List String :=
  if body = "" then []
  else (splitOnStr FRAG_DELIM body).filter (fun h => !(isBlankStr h))

/-- The dedup-and-push step of `appendHighlightToNote`: the candidate is
appended only when no existing fragment yields the same dedup key. -/
def appendHighlightPure (frags : List String) (c : String) : List String :=
  if frags.any (fun h => fragMatches h c) then frags else frags ++ [c]

/-- Comparator of the final sort in `appendHighlightToNote`:
`getCreationTime(b).localeCompare(getCreationTime(a))`, i.e. descending by
the timestamp key, stable. -/
def sortDescByTime (l : List String) : List String :=
  List.insertionSort (fun a b => dedupTime b ≤ dedupTime a) l

/-- Full pure core of one `appendHighlightToNote` call on the parsed
fragment list: dedup check, optional push, newest-first re-sort. -/
def appendStep (frags : List String) (c : String) : List String :=
  sortDescByTime (appendHighlightPure frags c)

/-- `appendHighlightToNote` (src/sync.ts, lines 316-353) as a body-to-body
function: parse the body, dedup-append the new fragment, re-sort newest
first, and re-join. -/
def appendHighlightToNote (body c : String) : String :=
  joinDelim (appendStep (parseHighlights body) c)

/-- `appendHighlightsToNote` (src/sync/article.ts highlight section, lines
312-316): plain concatenation with `'\n\n'`, no dedup of any kind. -/
def appendHighlightsToNote (body newContent : String) : String :=
  if body = "" then newContent else body ++ "\n\n" ++ newContent

/-- The no-duplicate invariant on a fragment list: all dedup keys are
pairwise distinct. -/
abbrev NoDupKeys (l : List String) : Prop := (l.map dedupKey).Nodup

/-! ## The artifact decoder `decodeAndCleanText`

src/sync/article.ts (highlight section), lines 491-515: four sequential
global regex replaces.  Each is embedded as a left-to-right scan that
rewrites non-overlapping matches and never rescans replacement text,
exactly the semantics of `String.prototype.replace` with a global regex. -/

/-- Replacement for a named entity: the table maps the four reachable named
keys (the numeric keys of the source table, the single-quote, slash and
backtick codes, are handled by the numeric branch of the callback and are
dead); an unknown name falls back to the full match unchanged
(`htmlEntities[match] || match`). -/
def namedRepl (m : List Char) : List Char :=
  if m = "&amp;".data then ['&']
  else if m = "&lt;".data then ['<']
  else if m = "&gt;".data then ['>']
  else if m = "&quot;".data then ['"']
  else m

/-- Match of the regex `&(#x?[0-9A-Fa-f]+|[A-Za-z]+);` at a position whose
leading `&` has already been consumed; returns the replacement text produced
by the callback and the input remaining after the match.  The callback
computes `parseInt(entity.slice(2), 16)` for `#x` entities and
`parseInt(entity.slice(1), 10)` otherwise; `parseInt(_, 10)` reads the
longest decimal-digit prefix of the (hexadecimal) digit run and yields NaN
on an empty prefix, which `String.fromCharCode` turns into code 0. -/
def matchEntityAfterAmp (cs : List Char) : Option (List Char × List Char) :=
  match cs with
  | '#' :: rest =>
    match rest with
    | 'x' :: rest2 =>
      let sp := rest2.span isHexDigit
      match sp.2 with
      | ';' :: rest3 =>
        if sp.1.isEmpty then none
        else some ([fromCharCode (hexDigitsToNat sp.1)], rest3)
      | _ => none
    | _ =>
      let sp := rest.span isHexDigit
      match sp.2 with
      | ';' :: rest3 =>
        if sp.1.isEmpty then none
        else
          let ds := sp.1.takeWhile Char.isDigit
          some ([fromCharCode (if ds.isEmpty then 0 else decDigitsToNat ds)], rest3)
      | _ => none
  | _ =>
    let sp := cs.span Char.isAlpha
    match sp.2 with
    | ';' :: rest3 =>
      if sp.1.isEmpty then none
      else some (namedRepl ('&' :: (sp.1 ++ [';'])), rest3)
    | _ => none

/-- Entity pass, fuelled scan.  The fuel only bounds the length of the scan;
`entityPass` passes the input length, which suffices because every step
consumes at least one input character. -/
def entityPassAux : Nat → List Char → List Char
  | 0, cs => cs
  | Nat.succ _, [] => []
  | Nat.succ fuel, '&' :: rest =>
    match matchEntityAfterAmp rest with
    | some (repl, rest2) => repl ++ entityPassAux fuel rest2
    | none => '&' :: entityPassAux fuel rest
  | Nat.succ fuel, c :: rest => c :: entityPassAux fuel rest

/-- First replace: `.replace(/&(#x?[0-9A-Fa-f]+|[A-Za-z]+);/g, cb)`. -/
def entityPass (cs : List Char) : List Char := entityPassAux cs.length cs

/-- Second replace: `.replace(/\\([\[\]_])/g, '$1')`. -/
def bracketUnescape : List Char → List Char
  | [] => []
  | [c] => [c]
  | c :: d :: rest =>
    if c = '\\' ∧ (d = '[' ∨ d = ']' ∨ d = '_') then d :: bracketUnescape rest
    else c :: bracketUnescape (d :: rest)

/-- Line terminators not matched by `.` in a JavaScript regex. -/
def isLineTerm (c : Char) : Bool :=
  c == '\n' || c == '\r' || c == '\u2028' || c == '\u2029'

/-- Third replace: `.replace(/\\(.)/g, '$1')` (the dot does not match line
terminators, so a backslash before one, or at the end, stays). -/
def backslashUnescape : List Char → List Char
  | [] => []
  | [c] => [c]
  | c :: d :: rest =>
    if c = '\\' ∧ isLineTerm d = false then d :: backslashUnescape rest
    else c :: backslashUnescape (d :: rest)

/-- Fourth replace: `.replace(/%([0-9A-Fa-f]{2})/g, cb)`. -/
def percentDecode : List Char → List Char
  | [] => []
  | [c] => [c]
  | [c, d] => [c, d]
  | c :: a :: b :: rest =>
    if c = '%' ∧ isHexDigit a = true ∧ isHexDigit b = true then
      fromCharCode (16 * hexVal a + hexVal b) :: percentDecode rest
    else c :: percentDecode (a :: b :: rest)

/-- `decodeAndCleanText` (src/sync/article.ts highlight section, lines
491-515): the four replaces in source order. -/
def decodeAndCleanText (s : String) : String :=
  ⟨percentDecode (backslashUnescape (bracketUnescape (entityPass s.data)))⟩

/-! ## Destination notes and `mergeHighlightNotes`

The Joplin note store is modelled as a list of notes; `joplin.data.put`
updates the note with the given id, `joplin.data.delete` removes it. -/

/-- A destination note with the fields the merge code reads and writes. -/
structure JNote where
  id : String
  title : String
  body : String
  parent_id : String
deriving DecidableEq

/-- `mergeHighlightNotes` (src/sync/article.ts highlight section, lines
340-356): join all bodies with the fragment delimiter in search-result
order, write the join into the first note (keeping its title, moving it to
the target folder), delete every other note, return the first note.
The function is only called with at least one search result; an empty
input returns the store unchanged. -/
def mergeHighlightNotes (store : List JNote) (notes : List JNote)
    (targetFolderId : String) : List JNote × Option JNote :=
  match notes with
  | [] => (store, none)
  | firstNote :: rest =>
    let mergedBody := joinDelim ((firstNote :: rest).map (fun n => n.body))
    let store1 := store.map (fun n =>
      if n.id = firstNote.id then
        { n with body := mergedBody, title := firstNote.title, parent_id := targetFolderId }
      else n)
    let store2 := store1.filter (fun n => !((rest.map (fun r => r.id)).contains n.id))
    (store2, some firstNote)

/-! ## Highlights and the grouping engine

src/sync/article.ts (highlight section), lines 235-310.  The luxon
timezone/day formatting is an external collaborator, passed in as
`zoneDay`; creation timestamps are epoch values. -/

/-- The denormalised owning-article reference carried by a highlight. -/
structure HArticle where
  id : String
  title : String
deriving DecidableEq

/-- A remote highlight, restricted to the fields the grouping and sync-state
code reads.  The position fraction is a rational in [0,1]. -/
structure Highlight where
  id : String
  article : HArticle
  createdAt : Nat
  highlightPositionPercent : Option ℚ
deriving DecidableEq

/-- One step of building a `{ [key: string]: Highlight[] }` object:
JavaScript objects keep string keys in insertion order, and each value is
pushed to the end of its bucket. -/
def addToGroups (gs : List (String × List Highlight)) (k : String) (h : Highlight) :
    List (String × List Highlight) :=
  if gs.any (fun g => g.1 = k) then
    gs.map (fun g => if g.1 = k then (g.1, g.2 ++ [h]) else g)
  else gs ++ [(k, [h])]

/-- The grouping loop shared by `groupHighlights` and
`groupHighlightsByArticle`: bucket a list by a string key, buckets in
first-appearance order, bucket contents in input order. -/
def groupByKey (keyOf : Highlight → String) (hs : List Highlight) :
    List (String × List Highlight) :=
  hs.foldl (fun gs h => addToGroups gs (keyOf h) h) []

/-- `groupHighlights` (lines 235-253): key is the article id under
`byArticle`, otherwise the creation timestamp rendered as a calendar day in
the configured timezone (the luxon collaborator `zoneDay`). -/
def groupHighlights (hs : List Highlight) (groupingType : String)
    (zoneDay : Nat → String) : List (String × List Highlight) :=
  groupByKey
    (fun h => if groupingType = "byArticle" then h.article.id else zoneDay h.createdAt) hs

/-- `groupHighlightsByArticle` (lines 299-310): bucket by article id and
flatten the buckets in first-appearance order. -/
def groupHighlightsByArticle (hs : List Highlight) : List Highlight :=
  ((groupByKey (fun h => h.article.id) hs).map (fun g => g.2)).flatten

/-- Stable ascending sort by creation time
(`highlights.sort((a, b) => new Date(a.createdAt).getTime() - new Date(b.createdAt).getTime())`). -/
def sortAscByCreated (l : List Highlight) : List Highlight :=
  List.insertionSort (fun a b => a.createdAt ≤ b.createdAt) l

/-- Stable ascending sort by position fraction with missing fractions as 0
(`highlights.sort((a, b) => (a.highlightPositionPercent || 0) - (b.highlightPositionPercent || 0))`). -/
def sortAscByPos (l : List Highlight) : List Highlight :=
  List.insertionSort
    (fun a b => a.highlightPositionPercent.getD 0 ≤ b.highlightPositionPercent.getD 0) l

/-- The ordering applied inside `syncGroupedHighlights` (lines 273-278)
before rendering a group into its note: by position under `byArticle`,
otherwise ascending creation time followed by regrouping by article. -/
def orderGroupForNote (groupingType : String) (hs : List Highlight) : List Highlight :=
  if groupingType = "byArticle" then sortAscByPos hs
  else groupHighlightsByArticle (sortAscByCreated hs)

/-! ## Sync state: ledgers, watermark, pruning

Timestamps are epoch values; `new Date(a) > new Date(b)` becomes `a > b`. -/

/-- A remote article, restricted to the fields the sync-state code reads. -/
structure Article where
  id : String
  savedAt : Nat
deriving DecidableEq

/-- One record of the article dedup ledger (`{id, savedAt}`). -/
structure SyncedArticle where
  id : String
  savedAt : Nat
deriving DecidableEq

/-- The highlight dedup ledger: group-key to list of highlight ids, in
insertion order. -/
abbrev HighlightLedger := List (String × List String)

/-- The watermark update used at src/sync/article.ts lines 23-25 and
src/unnamed/part_002 (index.ts) lines 312-314:
`if (new Date(candidate) > new Date(w)) w = candidate`. -/
def advanceWatermark (w candidate : Nat) : Nat :=
  if candidate > w then candidate else w

/-- Pure core of `syncArticles` (src/sync/article.ts, lines 93-114): walk
the fetched articles; an id already in the ledger is skipped, a new one is
appended to the ledger (the per-article note write catches its own errors,
so the record is pushed regardless) and the running watermark advanced. -/
def syncArticlesPure (ledger : List SyncedArticle) (w0 : Nat)
    (articles : List Article) : Nat × List SyncedArticle :=
  articles.foldl
    (fun acc a =>
      if acc.2.any (fun it => it.id = a.id) then acc
      else (advanceWatermark acc.1 a.savedAt, acc.2 ++ [⟨a.id, a.savedAt⟩]))
    (w0, ledger)

/-- `syncedHighlights[k]` with a missing key read as `[]`. -/
def ledgerIds (led : HighlightLedger) (k : String) : List String :=
  match led.find? (fun e => e.1 = k) with
  | some e => e.2
  | none => []

/-- `if (!syncedHighlights[k]) syncedHighlights[k] = []`. -/
def ledgerEnsure (led : HighlightLedger) (k : String) : HighlightLedger :=
  if led.any (fun e => e.1 = k) then led
  else led ++ [(k, [])]

/-- `if (!syncedHighlights[k].includes(id)) syncedHighlights[k].push(id)`. -/
def ledgerAdd (led : HighlightLedger) (k : String) (i : String) : HighlightLedger :=
  if (ledgerIds led k).contains i then led
  else led.map (fun e => if e.1 = k then (e.1, e.2 ++ [i]) else e)

/-- The ledger loop of `syncGroupedHighlights` (lines 282-292) over the
ordered highlights of one group. -/
def recordGroupHighlights (led : HighlightLedger) (k : String)
    (ordered : List Highlight) : HighlightLedger :=
  ordered.foldl (fun l h => ledgerAdd l k h.id) (ledgerEnsure led k)

/-- `groupHighlights.reduce(...)` at lines 220-222: latest creation time in
a group, starting from the pass watermark. -/
def latestInGroup (w0 : Nat) (hs : List Highlight) : Nat :=
  hs.foldl (fun latest h => if h.createdAt > latest then h.createdAt else latest) w0

/-- Pure core of `syncHighlights` (src/sync/article.ts highlight section,
lines 199-233): group, then per group record ids into the ledger and fold
the latest creation time into the new watermark. -/
def syncHighlightsPure (lastSyncDate : Nat) (ledger : HighlightLedger)
    (highlights : List Highlight) (groupingType : String)
    (zoneDay : Nat → String) : Nat × HighlightLedger :=
  (groupHighlights highlights groupingType zoneDay).foldl
    (fun acc g =>
      let led := recordGroupHighlights acc.2 g.1 (orderGroupForNote groupingType g.2)
      let latest := latestInGroup lastSyncDate g.2
      (if latest > acc.1 then latest else acc.1, led))
    (lastSyncDate, ledger)

/-- The 3-day retention window.  `thresholdDate.setDate(getDate() - 3)` is
modelled as 72 hours in milliseconds. -/
def retentionMs : Nat := 3 * 24 * 60 * 60 * 1000

/-- `cleanupOldArticles` (src/sync/article.ts, lines 66-83): keep the
records with `savedAt >= now - 3 days`. -/
def cleanupOldArticlesPure (now : Nat) (ledger : List SyncedArticle) :
    List SyncedArticle :=
  ledger.filter (fun it => decide (now - retentionMs ≤ it.savedAt))

/-- Record kind of the unified ledger of src/sync.ts. -/
inductive ItemType where
  | article : ItemType
  | highlight : ItemType
deriving DecidableEq

/-- One record of the unified ledger of src/sync.ts (`{id, savedAt, type}`). -/
structure SyncedItem where
  id : String
  savedAt : Nat
  type : ItemType
deriving DecidableEq

/-- `cleanupOldItems` (src/sync.ts, lines 355-375): highlight records are
always kept; article records are kept only when
`savedAt >= now - 3 days`. -/
def cleanupOldItems (now : Nat) (items : List SyncedItem) : List SyncedItem :=
  items.filter (fun it =>
    it.type == ItemType.highlight || decide (now - retentionMs ≤ it.savedAt))

/-! ## The sync pass `performSync` with injected collaborator failures

src/unnamed/part_002 (index.ts), lines 279-329.  The persisted settings are
an explicit record; every fallible collaborator call is a potential failure
point, and a failure is caught by the pass-level `catch`, which performs no
further writes. -/

/-- The three persisted settings values. -/
structure PersistedState where
  lastSyncDate : Nat
  syncedArticles : List SyncedArticle
  syncedHighlights : HighlightLedger
deriving DecidableEq

/-- The fallible collaborator calls of one pass, in program order:
folder resolution, the article fetch, the `setValue('syncedArticles')`
write, the highlight fetch, the note-store traffic of the highlight loop,
the `setValue('syncedHighlights')` write, `cleanupHighlightNotes`, the
`setValue` of the cleaned article ledger, and the final
`setValue('lastSyncDate')`. -/
inductive FailPoint where
  | folderResolve : FailPoint
  | articleFetch : FailPoint
  | articleLedgerCommit : FailPoint
  | highlightFetch : FailPoint
  | highlightNoteIO : FailPoint
  | highlightLedgerCommit : FailPoint
  | noteCleanup : FailPoint
  | articleCleanupCommit : FailPoint
  | watermarkCommit : FailPoint
deriving DecidableEq

/-- `performSync` (sync type `all`) as a transformer of the persisted state,
with `failAt` injecting a thrown error at the given collaborator call:
everything already committed stays, everything later is skipped.  Commit
order follows the source: the article ledger right after the article phase,
the highlight ledger right after the highlight phase, the pruned article
ledger after note cleanup, and the watermark last. -/
def performSyncModel (zoneDay : Nat → String) (groupingType : String) (now : Nat)
    (st0 : PersistedState) (articles : List Article) (highlights : List Highlight)
    (failAt : Option FailPoint) : PersistedState :=
  if failAt = some FailPoint.folderResolve then st0
  else if failAt = some FailPoint.articleFetch then st0
  else
    let ra := syncArticlesPure st0.syncedArticles st0.lastSyncDate articles
    if failAt = some FailPoint.articleLedgerCommit then st0
    else
      let st1 := { st0 with syncedArticles := ra.2 }
      if failAt = some FailPoint.highlightFetch then st1
      else
        let rh := syncHighlightsPure st0.lastSyncDate st1.syncedHighlights
          highlights groupingType zoneDay
        if failAt = some FailPoint.highlightNoteIO then st1
        else
          let st2 := { st1 with syncedHighlights := rh.2 }
          let w3 := if rh.1 > ra.1 then rh.1 else ra.1
          if failAt = some FailPoint.highlightLedgerCommit then st1
          else if failAt = some FailPoint.noteCleanup then st2
          else if failAt = some FailPoint.articleCleanupCommit then st2
          else
            let st3 := { st2 with
              syncedArticles := cleanupOldArticlesPure now st2.syncedArticles }
            if failAt = some FailPoint.watermarkCommit then st3
            else { st3 with lastSyncDate := w3 }

/-! ## Loading persisted ledgers: `JSON.parse(value || default)`

`JSON.parse` is a platform builtin; it is modelled here by a small JSON
parser over the JSON value grammar (whitespace, null, booleans, numbers,
strings with escapes, arrays, objects).  Number token validation is coarser
than the JSON grammar (the claims exercise no numbers); everything else
follows the grammar, and in particular any input that is not a JSON value
is rejected with an error, which models the exception thrown by
`JSON.parse`. -/

/-- A JSON value.  Number tokens keep their lexeme. -/
inductive Json where
  | null : Json
  | bool (b : Bool) : Json
  | num (lexeme : String) : Json
  | str (s : String) : Json
  | arr (items : List Json) : Json
  | obj (members : List (String × Json)) : Json

/-- JSON insignificant whitespace. -/
def jsonSkipWs (cs : List Char) : List Char :=
  cs.dropWhile (fun c => c == ' ' || c == '\t' || c == '\n' || c == '\r')

/-- Consume an expected literal character sequence. -/
def expectLit : List Char → List Char → Option (List Char)
  | [], cs => some cs
  | l :: ls, c :: cs => if l == c then expectLit ls cs else none
  | _ :: _, [] => none

/-- Body of a JSON string after the opening quote: returns the decoded
characters and the input after the closing quote. -/
def parseJsonStringBody : Nat → List Char → Except String (List Char × List Char)
  | 0, _ => Except.error ("fuel exhausted")
  | Nat.succ fuel, cs =>
    match cs with
    | [] => Except.error ("unterminated string")
    | '"' :: rest => Except.ok ([], rest)
    | '\\' :: esc :: rest =>
      if esc = '"' ∨ esc = '\\' ∨ esc = '/' then
        (parseJsonStringBody fuel rest).map (fun p => (esc :: p.1, p.2))
      else if esc = 'b' then
        (parseJsonStringBody fuel rest).map (fun p => ('\x08' :: p.1, p.2))
      else if esc = 'f' then
        (parseJsonStringBody fuel rest).map (fun p => ('\x0c' :: p.1, p.2))
      else if esc = 'n' then
        (parseJsonStringBody fuel rest).map (fun p => ('\n' :: p.1, p.2))
      else if esc = 'r' then
        (parseJsonStringBody fuel rest).map (fun p => ('\r' :: p.1, p.2))
      else if esc = 't' then
        (parseJsonStringBody fuel rest).map (fun p => ('\t' :: p.1, p.2))
      else if esc = 'u' then
        match rest with
        | a :: b :: c :: d :: rest2 =>
          if isHexDigit a && isHexDigit b && isHexDigit c && isHexDigit d then
            (parseJsonStringBody fuel rest2).map
              (fun p => (fromCharCode (hexDigitsToNat [a, b, c, d]) :: p.1, p.2))
          else Except.error ("bad unicode escape")
        | _ => Except.error ("bad unicode escape")
      else Except.error ("bad escape")
    | c :: rest =>
      if c.toNat < 32 then Except.error ("control character in string")
      else (parseJsonStringBody fuel rest).map (fun p => (c :: p.1, p.2))

/-- A JSON number token, read as a lexeme (coarser than the JSON number
grammar; unused by the claims). -/
def parseJsonNumber (cs : List Char) : Except String (Json × List Char) :=
  let sp := cs.span (fun c =>
    c.isDigit || c == '-' || c == '+' || c == '.' || c == 'e' || c == 'E')
  if sp.1.isEmpty then Except.error ("bad number") else Except.ok (Json.num ⟨sp.1⟩, sp.2)

/-- Comma-separated array items, after the opening bracket (the empty array
is handled by the caller). -/
def parseJsonItemsAux (pv : List Char → Except String (Json × List Char)) :
    Nat → List Char → Except String (List Json × List Char)
  | 0, _ => Except.error ("fuel exhausted")
  | Nat.succ fuel, cs =>
    match pv cs with
    | Except.error e => Except.error e
    | Except.ok (v, r) =>
      match jsonSkipWs r with
      | ',' :: r2 => (parseJsonItemsAux pv fuel r2).map (fun p => (v :: p.1, p.2))
      | ']' :: r2 => Except.ok ([v], r2)
      | _ => Except.error ("expected comma or closing bracket")

/-- Comma-separated object members, after the opening brace (the empty
object is handled by the caller). -/
def parseJsonMembersAux (pv : List Char → Except String (Json × List Char)) :
    Nat → List Char → Except String (List (String × Json) × List Char)
  | 0, _ => Except.error ("fuel exhausted")
  | Nat.succ fuel, cs =>
    match jsonSkipWs cs with
    | '"' :: r =>
      match parseJsonStringBody (r.length + 1) r with
      | Except.error e => Except.error e
      | Except.ok (key, r2) =>
        match jsonSkipWs r2 with
        | ':' :: r3 =>
          match pv r3 with
          | Except.error e => Except.error e
          | Except.ok (v, r4) =>
            match jsonSkipWs r4 with
            | ',' :: r5 =>
              (parseJsonMembersAux pv fuel r5).map (fun p => ((⟨key⟩, v) :: p.1, p.2))
            | '\x7d' :: r5 => Except.ok ([(⟨key⟩, v)], r5)
            | _ => Except.error ("expected comma or closing brace")
        | _ => Except.error ("expected colon")
    | _ => Except.error ("expected member key")

/-- A JSON value.  The fuel bounds the nesting depth; the top-level caller
passes the input length, which suffices because every nesting level consumes
at least one character before recursing. -/
def parseJsonValue : Nat → List Char → Except String (Json × List Char)
  | 0, _ => Except.error ("fuel exhausted")
  | Nat.succ fuel, cs =>
    match jsonSkipWs cs with
    | [] => Except.error ("unexpected end of input")
    | 'n' :: rest =>
      match expectLit ['u', 'l', 'l'] rest with
      | some r => Except.ok (Json.null, r)
      | none => Except.error ("bad literal")
    | 't' :: rest =>
      match expectLit ['r', 'u', 'e'] rest with
      | some r => Except.ok (Json.bool true, r)
      | none => Except.error ("bad literal")
    | 'f' :: rest =>
      match expectLit ['a', 'l', 's', 'e'] rest with
      | some r => Except.ok (Json.bool false, r)
      | none => Except.error ("bad literal")
    | '"' :: rest =>
      match parseJsonStringBody (rest.length + 1) rest with
      | Except.error e => Except.error e
      | Except.ok (chars, r) => Except.ok (Json.str ⟨chars⟩, r)
    | '[' :: rest =>
      match jsonSkipWs rest with
      | ']' :: r2 => Except.ok (Json.arr [], r2)
      | _ =>
        match parseJsonItemsAux (fun x => parseJsonValue fuel x) (rest.length + 1) rest with
        | Except.error e => Except.error e
        | Except.ok (items, r) => Except.ok (Json.arr items, r)
    | '\x7b' :: rest =>
      match jsonSkipWs rest with
      | '\x7d' :: r2 => Except.ok (Json.obj [], r2)
      | _ =>
        match parseJsonMembersAux (fun x => parseJsonValue fuel x) (rest.length + 1) rest with
        | Except.error e => Except.error e
        | Except.ok (members, r) => Except.ok (Json.obj members, r)
    | c :: rest =>
      if c == '-' || c.isDigit then parseJsonNumber (c :: rest)
      else Except.error ("unexpected character")

/-- `JSON.parse`, modelled: parse one value and require only whitespace
after it. -/
def jsonParse (s : String) : Except String Json :=
  match parseJsonValue (s.data.length + 1) s.data with
  | Except.error e => Except.error e
  | Except.ok (v, rest) =>
    if (jsonSkipWs rest).isEmpty then Except.ok v
    else Except.error ("unexpected trailing characters")

/-- `JSON.parse(await joplin.settings.value('syncedArticles') || '[]')`:
only an empty (unset) stored value falls back to the empty-array literal;
any non-empty value, well-formed or not, goes to `JSON.parse` as is. -/
def loadSyncedArticlesSetting (stored : String) : Except String Json :=
  jsonParse (if stored = "" then "[]" else stored)

/-- `JSON.parse(await joplin.settings.value('syncedHighlights') || '\x7b\x7d')`. -/
def loadSyncedHighlightsSetting (stored : String) : Except String Json :=
  jsonParse (if stored = "" then "\x7b\x7d" else stored)

/-- Did the load succeed? -/
def exceptIsOk : Except String Json → Bool
  | Except.ok _ => true
  | Except.error _ => false

/-- Is the loaded value the empty array? -/
def isEmptyArr : Except String Json → Bool
  | Except.ok (Json.arr []) => true
  | _ => false

/-- Is the loaded value the empty object? -/
def isEmptyObj : Except String Json → Bool
  | Except.ok (Json.obj []) => true
  | _ => false

/-! ## Unrecognized occurrences of the decoder triggers

Per-position checks for the three regex passes of `decodeAndCleanText`:
an occurrence of a trigger character is "untouched" when the pass that
scans it either does not match there or replaces the match by itself. -/

/-- At a position where the entity scan sees `&`: untouched when the entity
regex does not match, or when the callback returns the matched text itself
(an unrecognized name falling through `htmlEntities[match] || match`). -/
def entityOccUntouched (rest : List Char) : Bool :=
  match matchEntityAfterAmp rest with
  | none => true
  | some p => decide ('&' :: rest = p.1 ++ p.2)

/-- At a `\` position: untouched exactly when the backslash is final or
precedes a line terminator (which `.` does not match); any other backslash
escape is consumed by the third replace. -/
def backslashOccUntouched (rest : List Char) : Bool :=
  match rest with
  | [] => true
  | d :: _ => isLineTerm d

/-- At a `%` position: untouched exactly when not followed by two
hexadecimal digits. -/
def percentOccUntouched (rest : List Char) : Bool :=
  match rest with
  | a :: b :: _ => !(isHexDigit a && isHexDigit b)
  | _ => true

/-- Every trigger-character occurrence in the list, at any position, is an
unrecognized (untouched) one. -/
def allOccurrencesUntouched : List Char → Bool
  | [] => true
  | c :: rest =>
    (if c = '&' then entityOccUntouched rest else true) &&
    (if c = '\\' then backslashOccUntouched rest else true) &&
    (if c = '%' then percentOccUntouched rest else true) &&
    allOccurrencesUntouched rest

/-! ## Watermark lemmas -/

theorem le_advanceWatermark (w c : Nat) : w ≤ advanceWatermark w c := by
  simp only [advanceWatermark]
  split <;> omega

theorem le_foldl_advanceWatermark (w : Nat) (cs : List Nat) :
    w ≤ cs.foldl advanceWatermark w := by
  induction cs generalizing w with
  | nil => simp
  | cons c cs ih =>
    exact le_trans (le_advanceWatermark w c) (ih (advanceWatermark w c))

theorem syncArticlesPure_foldl_watermark_le (arts : List Article)
    (acc : Nat × List SyncedArticle) :
    acc.1 ≤ (arts.foldl
      (fun acc a =>
        if acc.2.any (fun it => it.id = a.id) then acc
        else (advanceWatermark acc.1 a.savedAt, acc.2 ++ [⟨a.id, a.savedAt⟩]))
      acc).1 := by
  induction arts generalizing acc with
  | nil => simp
  | cons a arts ih =>
    refine le_trans ?_ (ih _)
    dsimp only
    split
    · exact le_refl _
    · exact le_advanceWatermark _ _

theorem syncArticlesPure_watermark_le (ledger : List SyncedArticle) (w : Nat)
    (arts : List Article) : w ≤ (syncArticlesPure ledger w arts).1 :=
  syncArticlesPure_foldl_watermark_le arts (w, ledger)

/-- C5: the stored watermark is monotonically non-decreasing: the update
step is exactly `max` of the current value and the candidate, any sequence
of candidates can only raise it, the article loop can only raise it, and a
whole `performSync` pass, aborted at any point or run to completion, never
lowers the persisted `lastSyncDate`. -/
theorem watermark_monotone :
    (∀ w c, advanceWatermark w c = max w c) ∧
    (∀ w (cs : List Nat), w ≤ cs.foldl advanceWatermark w) ∧
    (∀ ledger w arts, w ≤ (syncArticlesPure ledger w arts).1) ∧
    (∀ zoneDay groupingType now st articles highlights failAt,
      st.lastSyncDate ≤
        (performSyncModel zoneDay groupingType now st articles highlights
          failAt).lastSyncDate) := by
  refine ⟨fun w c => ?_, le_foldl_advanceWatermark, syncArticlesPure_watermark_le, ?_⟩
  · simp only [advanceWatermark]
    split <;> omega
  · intro zoneDay groupingType now st articles highlights failAt
    have hw := syncArticlesPure_watermark_le st.syncedArticles st.lastSyncDate articles
    simp only [performSyncModel]
    split
    · exact le_refl _
    split
    · exact le_refl _
    split
    · exact le_refl _
    split
    · exact le_refl _
    split
    · exact le_refl _
    split
    · exact le_refl _
    split
    · exact le_refl _
    split
    · exact le_refl _
    split
    · exact le_refl _
    · simp only []
      split <;> omega

/-! ## C7: asymmetric pruning -/

/-- C7: pruning is asymmetric by record kind: with the 3-day retention
window, every article record older than the window is dropped from the
ledger (both in the unified `cleanupOldItems` of src/sync.ts and in
`cleanupOldArticles` of src/sync/article.ts), while every highlight record,
whatever its age, is kept. -/
theorem prune_drops_old_articles_keeps_highlights :
    ∀ (now : Nat) (items : List SyncedItem) (ledger : List SyncedArticle),
      (∀ it ∈ items, it.type = ItemType.article → it.savedAt < now - retentionMs →
        it ∉ cleanupOldItems now items) ∧
      (∀ it ∈ items, it.type = ItemType.highlight → it ∈ cleanupOldItems now items) ∧
      (∀ r ∈ ledger, r.savedAt < now - retentionMs →
        r ∉ cleanupOldArticlesPure now ledger) := by
  intro now items ledger
  refine ⟨?_, ?_, ?_⟩
  · intro it hmem htype hlt hin
    have := (List.mem_filter.mp hin).2
    simp only [htype, Bool.or_eq_true, beq_iff_eq, decide_eq_true_eq] at this
    rcases this with h | h
    · cases h
    · omega
  · intro it hmem htype
    refine List.mem_filter.mpr ⟨hmem, ?_⟩
    simp [htype]
  · intro r hmem hlt hin
    have := (List.mem_filter.mp hin).2
    simp only [decide_eq_true_eq] at this
    omega

theorem prune_drops_old_articles_keeps_highlights_witness :
    (⟨"a", 0, ItemType.article⟩ : SyncedItem) ∉
      cleanupOldItems 864000000
        [⟨"a", 0, ItemType.article⟩, ⟨"h", 0, ItemType.highlight⟩] ∧
    (⟨"h", 0, ItemType.highlight⟩ : SyncedItem) ∈
      cleanupOldItems 864000000
        [⟨"a", 0, ItemType.article⟩, ⟨"h", 0, ItemType.highlight⟩] ∧
    (⟨"a", 0⟩ : SyncedArticle) ∉ cleanupOldArticlesPure 864000000 [⟨"a", 0⟩] := by
  have h := prune_drops_old_articles_keeps_highlights 864000000
    [⟨"a", 0, ItemType.article⟩, ⟨"h", 0, ItemType.highlight⟩] [⟨"a", 0⟩]
  exact ⟨h.1 _ (by decide) (by decide) (by decide),
    h.2.1 _ (by decide) (by decide),
    h.2.2 _ (by decide) (by decide)⟩

/-! ## C4: what an aborted pass leaves behind -/

/-- C4 counterexample: with one new article and a failure at the highlight
fetch, the pass aborts with the article ledger already committed, so the
persisted state is not the state at pass start (the claim asserts it would
be). -/
theorem abort_after_article_phase_mutates_ledger :
    performSyncModel (fun _ => "d") "byDate" 0
      ⟨100, [], []⟩ [⟨"a1", 200⟩] [] (some FailPoint.highlightFetch) ≠
      (⟨100, [], []⟩ : PersistedState) := by decide

/-- C4 amended: on a fatal abort at any collaborator call, the watermark
(`lastSyncDate`) is exactly as at pass start because it is written only as
the final step; but ledger writes of phases completed before the failure
may already have been committed, so the full state is only guaranteed
untouched when the failure happens before the first commit (folder
resolution, article fetch, or the article-ledger write itself). -/
theorem abort_preserves_watermark :
    ∀ zoneDay groupingType now (st : PersistedState) articles highlights fp,
      (performSyncModel zoneDay groupingType now st articles highlights
        (some fp)).lastSyncDate = st.lastSyncDate ∧
      ((fp = FailPoint.folderResolve ∨ fp = FailPoint.articleFetch ∨
          fp = FailPoint.articleLedgerCommit) →
        performSyncModel zoneDay groupingType now st articles highlights
          (some fp) = st) := by
  intro zoneDay groupingType now st articles highlights fp
  cases fp <;> simp [performSyncModel]

theorem abort_preserves_watermark_witness :
    (performSyncModel (fun _ => "d") "byDate" 0 ⟨100, [], []⟩ [⟨"a1", 200⟩] []
      (some FailPoint.articleFetch)).lastSyncDate = 100 ∧
    performSyncModel (fun _ => "d") "byDate" 0 ⟨100, [], []⟩ [⟨"a1", 200⟩] []
      (some FailPoint.articleFetch) = (⟨100, [], []⟩ : PersistedState) := by
  have h := abort_preserves_watermark (fun _ => "d") "byDate" 0
    ⟨100, [], []⟩ [⟨"a1", 200⟩] [] FailPoint.articleFetch
  exact ⟨h.1, h.2 (Or.inr (Or.inl rfl))⟩

/-! ## C8: loading persisted ledgers -/

/-- C8 counterexample: an unparseable non-empty persisted value does not
load as the empty state; `JSON.parse(value || '[]')` only defaults the
empty string, so a malformed value raises (the claim asserts loading always
succeeds with the empty state). -/
theorem malformed_ledger_parse_fails :
    exceptIsOk (loadSyncedArticlesSetting ("not json")) = false := by decide

/-- C8 amended: only an empty (unset) persisted value is read as the empty
state (empty array for the article ledger, empty object for the highlight
ledger); any non-empty value is handed to `JSON.parse` unchanged, so an
unparseable value propagates a parse error that aborts the pass instead of
being treated as empty. -/
theorem ledger_load_empty_default :
    isEmptyArr (loadSyncedArticlesSetting ("")) = true ∧
    isEmptyObj (loadSyncedHighlightsSetting ("")) = true ∧
    (∀ s : String, s ≠ "" → loadSyncedArticlesSetting s = jsonParse s) ∧
    (∀ s : String, s ≠ "" → loadSyncedHighlightsSetting s = jsonParse s) := by
  refine ⟨by decide, by decide, ?_, ?_⟩ <;>
    · intro s hs
      simp [loadSyncedArticlesSetting, loadSyncedHighlightsSetting, hs]

theorem ledger_load_empty_default_witness :
    ("not json" : String) ≠ "" ∧
    loadSyncedArticlesSetting ("not json") = jsonParse ("not json") ∧
    loadSyncedHighlightsSetting ("not json") = jsonParse ("not json") :=
  ⟨by decide,
    ledger_load_empty_default.2.2.1 ("not json") (by decide),
    ledger_load_empty_default.2.2.2 ("not json") (by decide)⟩

/-! ## Decoder pass lemmas -/

theorem entityPassAux_nil (fuel : Nat) : entityPassAux fuel [] = [] := by
  cases fuel <;> rfl

theorem entityPassAux_no_amp (fuel : Nat) (cs : List Char)
    (h : ∀ c ∈ cs, c ≠ '&') : entityPassAux fuel cs = cs := by
  induction fuel generalizing cs with
  | zero => rfl
  | succ fuel ih =>
    cases cs with
    | nil => rfl
    | cons c rest =>
      have hc : c ≠ '&' := h c (List.mem_cons_self c rest)
      have hrest : ∀ x ∈ rest, x ≠ '&' := fun x hx => h x (List.mem_cons_of_mem c hx)
      rw [entityPassAux.eq_4 fuel c rest (fun he => hc he), ih rest hrest]

theorem entityPass_no_amp (cs : List Char) (h : ∀ c ∈ cs, c ≠ '&') :
    entityPass cs = cs := entityPassAux_no_amp _ cs h

theorem bracketUnescape_no_backslash (cs : List Char)
    (h : ∀ c ∈ cs, c ≠ '\\') : bracketUnescape cs = cs := by
  induction cs using bracketUnescape.induct with
  | case1 => rfl
  | case2 c => rfl
  | case3 c d rest hcond ih =>
    exact absurd hcond.1 (h c (List.mem_cons_self _ _))
  | case4 c d rest hcond ih =>
    rw [bracketUnescape, if_neg hcond, ih]
    intro x hx
    exact h x (List.mem_cons_of_mem c hx)

theorem backslashUnescape_no_backslash (cs : List Char)
    (h : ∀ c ∈ cs, c ≠ '\\') : backslashUnescape cs = cs := by
  induction cs using backslashUnescape.induct with
  | case1 => rfl
  | case2 c => rfl
  | case3 c d rest hcond ih =>
    exact absurd hcond.1 (h c (List.mem_cons_self _ _))
  | case4 c d rest hcond ih =>
    rw [backslashUnescape, if_neg hcond, ih]
    intro x hx
    exact h x (List.mem_cons_of_mem c hx)

theorem percentDecode_no_percent (cs : List Char)
    (h : ∀ c ∈ cs, c ≠ '%') : percentDecode cs = cs := by
  induction cs using percentDecode.induct with
  | case1 => rfl
  | case2 c => rfl
  | case3 c d => rfl
  | case4 c a b rest hcond ih =>
    exact absurd hcond.1 (h c (List.mem_cons_self _ _))
  | case5 c a b rest hcond ih =>
    rw [percentDecode, if_neg hcond, ih]
    intro x hx
    exact h x (List.mem_cons_of_mem c hx)

theorem decode_fixed_of_no_triggers (cs : List Char)
    (h : ∀ c ∈ cs, c ≠ '&' ∧ c ≠ '\\' ∧ c ≠ '%') :
    percentDecode (backslashUnescape (bracketUnescape (entityPass cs))) = cs := by
  rw [entityPass_no_amp cs (fun c hc => (h c hc).1),
    bracketUnescape_no_backslash cs (fun c hc => (h c hc).2.1),
    backslashUnescape_no_backslash cs (fun c hc => (h c hc).2.1),
    percentDecode_no_percent cs (fun c hc => (h c hc).2.2)]

/-! ## C2: idempotence of the decoder -/

/-- C2 counterexample: the decoder is not idempotent.  `"%2525"` decodes to
`"%25"` in one application (the `%25` span is consumed and the following
`25` is not rescanned) and to `"%"` in a second one. -/
theorem decode_double_percent_not_idempotent :
    decodeAndCleanText (decodeAndCleanText ("%2525")) ≠
      decodeAndCleanText ("%2525") := by decide

/-- C2 amended: `decodeAndCleanText` is not idempotent on arbitrary input
(double-encoded text such as `"%2525"` or `"&amp;amp;"` decodes further on
a second application); it is idempotent on every input whose decoded
output contains none of the trigger characters `&`, `\`, `%`. -/
theorem decode_idempotent_on_clean_output :
    ∀ s : String,
      ((decodeAndCleanText s).data.all
        (fun c => !(c == '&' || c == '\\' || c == '%'))) = true →
      decodeAndCleanText (decodeAndCleanText s) = decodeAndCleanText s := by
  intro s h
  have h' : ∀ c ∈ (decodeAndCleanText s).data, c ≠ '&' ∧ c ≠ '\\' ∧ c ≠ '%' := by
    intro c hc
    have := List.all_eq_true.mp h c hc
    simpa [and_assoc] using this
  show (⟨percentDecode (backslashUnescape (bracketUnescape
    (entityPass (decodeAndCleanText s).data)))⟩ : String) = decodeAndCleanText s
  rw [decode_fixed_of_no_triggers _ h']

theorem decode_idempotent_on_clean_output_witness :
    ((decodeAndCleanText ("a\\[b%41c")).data.all
      (fun c => !(c == '&' || c == '\\' || c == '%'))) = true ∧
    decodeAndCleanText (decodeAndCleanText ("a\\[b%41c")) =
      decodeAndCleanText ("a\\[b%41c") :=
  ⟨by decide, decode_idempotent_on_clean_output ("a\\[b%41c") (by decide)⟩

/-! ## C9: totality and pass-through of the decoder -/

theorem takeWhile_all_append (p : Char → Bool) (l1 : List Char) (x : Char)
    (l2 : List Char) (h1 : ∀ c ∈ l1, p c = true) (h2 : p x = false) :
    (l1 ++ x :: l2).takeWhile p = l1 := by
  induction l1 with
  | nil => simp [List.takeWhile_cons, h2]
  | cons c cs ih =>
    simp [List.takeWhile_cons, h1 c (List.mem_cons_self c cs),
      ih (fun d hd => h1 d (List.mem_cons_of_mem c hd))]

theorem dropWhile_all_append (p : Char → Bool) (l1 : List Char) (x : Char)
    (l2 : List Char) (h1 : ∀ c ∈ l1, p c = true) (h2 : p x = false) :
    (l1 ++ x :: l2).dropWhile p = x :: l2 := by
  induction l1 with
  | nil => simp [List.dropWhile_cons, h2]
  | cons c cs ih =>
    simp [List.dropWhile_cons, h1 c (List.mem_cons_self c cs),
      ih (fun d hd => h1 d (List.mem_cons_of_mem c hd))]

theorem namedRepl_unknown (name : List Char)
    (h : name ∉ [['a', 'm', 'p'], ['l', 't'], ['g', 't'], ['q', 'u', 'o', 't']]) :
    namedRepl ('&' :: (name ++ [';'])) = '&' :: (name ++ [';']) := by
  simp only [List.mem_cons, List.not_mem_nil, or_false, not_or] at h
  obtain ⟨h1, h2, h3, h4⟩ := h
  have key : ∀ tl : List Char, ('&' :: (name ++ [';'])) = '&' :: (tl ++ [';']) →
      name = tl := by
    intro tl he
    injection he with _ he2
    exact List.append_cancel_right he2
  have hd1 : "&amp;".data = '&' :: (['a', 'm', 'p'] ++ [';']) := by decide
  have hd2 : "&lt;".data = '&' :: (['l', 't'] ++ [';']) := by decide
  have hd3 : "&gt;".data = '&' :: (['g', 't'] ++ [';']) := by decide
  have hd4 : "&quot;".data = '&' :: (['q', 'u', 'o', 't'] ++ [';']) := by decide
  rw [namedRepl]
  rw [if_neg (fun he => h1 (key ['a', 'm', 'p'] (hd1 ▸ he))),
    if_neg (fun he => h2 (key ['l', 't'] (hd2 ▸ he))),
    if_neg (fun he => h3 (key ['g', 't'] (hd3 ▸ he))),
    if_neg (fun he => h4 (key ['q', 'u', 'o', 't'] (hd4 ▸ he)))]

theorem alpha_not_special (c : Char) (h : c.isAlpha = true) :
    c ≠ '&' ∧ c ≠ '\\' ∧ c ≠ '%' ∧ c ≠ '#' := by
  refine ⟨?_, ?_, ?_, ?_⟩ <;> · intro he; subst he; simp_all [Char.isAlpha, Char.isUpper, Char.isLower]

theorem matchEntityAfterAmp_unknown_name (name : List Char) (hne : name ≠ [])
    (halpha : ∀ c ∈ name, c.isAlpha = true)
    (hnotin : name ∉ [['a', 'm', 'p'], ['l', 't'], ['g', 't'], ['q', 'u', 'o', 't']]) :
    matchEntityAfterAmp (name ++ [';']) = some ('&' :: (name ++ [';']), []) := by
  have hspan : (name ++ [';']).span Char.isAlpha = (name, [';']) := by
    rw [List.span_eq_take_drop,
      takeWhile_all_append _ _ _ _ halpha (by decide),
      dropWhile_all_append _ _ _ _ halpha (by decide)]
  obtain ⟨n0, ntl, rfl⟩ : ∃ n0 ntl, name = n0 :: ntl := by
    cases name with
    | nil => exact absurd rfl hne
    | cons n0 ntl => exact ⟨n0, ntl, rfl⟩
  have hn0 : n0.isAlpha = true := halpha n0 (List.mem_cons_self n0 ntl)
  have hn0ne : n0 ≠ '#' := (alpha_not_special n0 hn0).2.2.2
  rw [matchEntityAfterAmp.eq_def]
  simp only [List.cons_append]
  split
  · rename_i rest heq
    injection heq with he1 he2
    exact absurd he1 hn0ne
  · simp only [← List.cons_append, hspan]
    simp
    exact namedRepl_unknown (n0 :: ntl) hnotin

theorem decodeAndCleanText_unknown_entity (name : List Char) (hne : name ≠ [])
    (halpha : ∀ c ∈ name, c.isAlpha = true)
    (hnotin : name ∉ [['a', 'm', 'p'], ['l', 't'], ['g', 't'], ['q', 'u', 'o', 't']]) :
    decodeAndCleanText ⟨'&' :: (name ++ [';'])⟩ = ⟨'&' :: (name ++ [';'])⟩ := by
  have hmatch := matchEntityAfterAmp_unknown_name name hne halpha hnotin
  have hnr := namedRepl_unknown name hnotin
  have hfull : entityPass ('&' :: (name ++ [';'])) = '&' :: (name ++ [';']) := by
    show entityPassAux (('&' :: (name ++ [';'])).length) ('&' :: (name ++ [';'])) =
      '&' :: (name ++ [';'])
    rw [List.length_cons, entityPassAux.eq_3, hmatch]
    simp only [hnr, entityPassAux_nil, List.append_nil]
  have hsafe : ∀ c ∈ '&' :: (name ++ [';']), c ≠ '\\' ∧ c ≠ '%' := by
    intro c hc
    rcases List.mem_cons.mp hc with rfl | hc
    · exact ⟨by decide, by decide⟩
    rcases List.mem_append.mp hc with hc | hc
    · have := alpha_not_special c (halpha c hc)
      exact ⟨this.2.1, this.2.2.1⟩
    · rcases List.mem_singleton.mp hc with rfl
      exact ⟨by decide, by decide⟩
  show (⟨percentDecode (backslashUnescape (bracketUnescape
    (entityPass ('&' :: (name ++ [';'])))))⟩ : String) = _
  rw [hfull, bracketUnescape_no_backslash _ (fun c hc => (hsafe c hc).1),
    backslashUnescape_no_backslash _ (fun c hc => (hsafe c hc).1),
    percentDecode_no_percent _ (fun c hc => (hsafe c hc).2)]

/-- Special cases of decoder pass-through: a string with none of the
trigger characters is returned verbatim, and an unrecognized named entity
`&name;` (any letter run other than the four table keys amp, lt, gt, quot)
standing alone decodes to itself. -/
theorem decode_total_and_preserves_unrecognized :
    (∀ s : String,
      (s.data.all (fun c => !(c == '&' || c == '\\' || c == '%'))) = true →
      decodeAndCleanText s = s) ∧
    (∀ (name : List Char), name ≠ [] →
      (∀ c ∈ name, c.isAlpha = true) →
      name ∉ [['a', 'm', 'p'], ['l', 't'], ['g', 't'], ['q', 'u', 'o', 't']] →
      decodeAndCleanText ⟨'&' :: (name ++ [';'])⟩ = ⟨'&' :: (name ++ [';'])⟩) := by
  constructor
  · intro s h
    have h' : ∀ c ∈ s.data, c ≠ '&' ∧ c ≠ '\\' ∧ c ≠ '%' := by
      intro c hc
      have := List.all_eq_true.mp h c hc
      simpa [and_assoc] using this
    show (⟨percentDecode (backslashUnescape (bracketUnescape
      (entityPass s.data)))⟩ : String) = s
    rw [decode_fixed_of_no_triggers _ h']
  · exact decodeAndCleanText_unknown_entity

theorem decode_total_and_preserves_unrecognized_witness :
    decodeAndCleanText ("abc def.") = "abc def." ∧
    decodeAndCleanText ("&foo;") = "&foo;" := by
  constructor
  · exact decode_total_and_preserves_unrecognized.1 ("abc def.") (by decide)
  · exact decode_total_and_preserves_unrecognized.2 ['f', 'o', 'o'] (by decide)
      (by decide) (by decide)

/-! ## C9: per-occurrence pass-through on arbitrary inputs -/

theorem allOccurrencesUntouched_tail {c : Char} {rest : List Char}
    (h : allOccurrencesUntouched (c :: rest) = true) :
    allOccurrencesUntouched rest = true := by
  simp only [allOccurrencesUntouched, Bool.and_eq_true] at h
  exact h.2

theorem allOccurrencesUntouched_amp {rest : List Char}
    (h : allOccurrencesUntouched ('&' :: rest) = true) :
    entityOccUntouched rest = true := by
  simp only [allOccurrencesUntouched, Bool.and_eq_true] at h
  simpa using h.1.1.1

theorem allOccurrencesUntouched_backslash {rest : List Char}
    (h : allOccurrencesUntouched ('\\' :: rest) = true) :
    backslashOccUntouched rest = true := by
  simp only [allOccurrencesUntouched, Bool.and_eq_true] at h
  simpa using h.1.1.2

theorem allOccurrencesUntouched_percent {rest : List Char}
    (h : allOccurrencesUntouched ('%' :: rest) = true) :
    percentOccUntouched rest = true := by
  simp only [allOccurrencesUntouched, Bool.and_eq_true] at h
  simpa using h.1.2

theorem allOccurrencesUntouched_suffix :
    ∀ {cs l : List Char}, l <:+ cs → allOccurrencesUntouched cs = true →
      allOccurrencesUntouched l = true := by
  intro cs
  induction cs with
  | nil =>
    intro l hl h
    rw [List.suffix_nil.mp hl]
    rfl
  | cons c rest ih =>
    intro l hl h
    rcases List.suffix_cons_iff.mp hl with rfl | hl
    · exact h
    · exact ih hl (allOccurrencesUntouched_tail h)

theorem matchEntityAfterAmp_suffix {rest : List Char} {p : List Char × List Char}
    (h : matchEntityAfterAmp rest = some p) : p.2 <:+ rest := by
  rw [matchEntityAfterAmp.eq_def] at h
  simp only [List.span_eq_take_drop] at h
  split at h
  · rename_i rest1
    split at h
    · rename_i rest2
      split at h
      · rename_i rest3 heq
        split at h
        · cases h
        · injection h with he
          rw [← he]
          dsimp only
          refine List.IsSuffix.trans (⟨[';'], rfl⟩ : rest3 <:+ ';' :: rest3) ?_
          rw [← heq]
          exact List.IsSuffix.trans (List.dropWhile_suffix _) ⟨['#', 'x'], rfl⟩
      · cases h
    · split at h
      · rename_i rest3 heq
        split at h
        · cases h
        · injection h with he
          rw [← he]
          dsimp only
          refine List.IsSuffix.trans (⟨[';'], rfl⟩ : rest3 <:+ ';' :: rest3) ?_
          rw [← heq]
          exact List.IsSuffix.trans (List.dropWhile_suffix _) ⟨['#'], rfl⟩
      · cases h
  · split at h
    · rename_i rest3 heq
      split at h
      · cases h
      · injection h with he
        rw [← he]
        dsimp only
        refine List.IsSuffix.trans (⟨[';'], rfl⟩ : rest3 <:+ ';' :: rest3) ?_
        rw [← heq]
        exact List.dropWhile_suffix _
    · cases h

theorem entityPassAux_untouched :
    ∀ (fuel : Nat) (cs : List Char), cs.length ≤ fuel →
      allOccurrencesUntouched cs = true → entityPassAux fuel cs = cs := by
  intro fuel
  induction fuel with
  | zero =>
    intro cs hlen _
    rw [List.length_eq_zero.mp (Nat.le_zero.mp hlen)]
    rfl
  | succ fuel ih =>
    intro cs hlen hocc
    cases cs with
    | nil => rfl
    | cons c rest =>
      have hlen' : rest.length ≤ fuel := by
        simp only [List.length_cons] at hlen
        omega
      by_cases hc : c = '&'
      · subst hc
        rw [entityPassAux.eq_3 fuel rest]
        have hocc' := allOccurrencesUntouched_amp hocc
        unfold entityOccUntouched at hocc'
        cases hm : matchEntityAfterAmp rest with
        | none =>
          show '&' :: entityPassAux fuel rest = '&' :: rest
          rw [ih rest hlen' (allOccurrencesUntouched_tail hocc)]
        | some p =>
          obtain ⟨repl, rest2⟩ := p
          rw [hm] at hocc'
          have heq : '&' :: rest = repl ++ rest2 := by
            simpa using hocc'
          have hsuf : rest2 <:+ rest := matchEntityAfterAmp_suffix hm
          have hocc2 : allOccurrencesUntouched rest2 = true :=
            allOccurrencesUntouched_suffix (hsuf.trans ⟨['&'], rfl⟩) hocc
          show repl ++ entityPassAux fuel rest2 = '&' :: rest
          rw [ih rest2 (le_trans hsuf.length_le hlen') hocc2]
          exact heq.symm
      · rw [entityPassAux.eq_4 fuel c rest (fun he => hc he),
          ih rest hlen' (allOccurrencesUntouched_tail hocc)]

theorem bracketUnescape_untouched (cs : List Char)
    (h : allOccurrencesUntouched cs = true) : bracketUnescape cs = cs := by
  induction cs using bracketUnescape.induct with
  | case1 => rfl
  | case2 c => rfl
  | case3 c d rest hcond ih =>
    exfalso
    obtain ⟨rfl, hd⟩ := hcond
    have hb := allOccurrencesUntouched_backslash h
    simp only [backslashOccUntouched] at hb
    rcases hd with rfl | rfl | rfl <;> simp [isLineTerm] at hb
  | case4 c d rest hcond ih =>
    rw [bracketUnescape, if_neg hcond, ih (allOccurrencesUntouched_tail h)]

theorem backslashUnescape_untouched (cs : List Char)
    (h : allOccurrencesUntouched cs = true) : backslashUnescape cs = cs := by
  induction cs using backslashUnescape.induct with
  | case1 => rfl
  | case2 c => rfl
  | case3 c d rest hcond ih =>
    exfalso
    obtain ⟨rfl, hd⟩ := hcond
    have hb := allOccurrencesUntouched_backslash h
    simp only [backslashOccUntouched] at hb
    rw [hd] at hb
    cases hb
  | case4 c d rest hcond ih =>
    rw [backslashUnescape, if_neg hcond, ih (allOccurrencesUntouched_tail h)]

theorem percentDecode_untouched (cs : List Char)
    (h : allOccurrencesUntouched cs = true) : percentDecode cs = cs := by
  induction cs using percentDecode.induct with
  | case1 => rfl
  | case2 c => rfl
  | case3 c d => rfl
  | case4 c a b rest hcond ih =>
    exfalso
    obtain ⟨rfl, ha, hb2⟩ := hcond
    have hp := allOccurrencesUntouched_percent h
    simp only [percentOccUntouched] at hp
    rw [ha, hb2] at hp
    simp at hp
  | case5 c a b rest hcond ih =>
    rw [percentDecode, if_neg hcond, ih (allOccurrencesUntouched_tail h)]

/-- C9 counterexample: an unrecognized escape occurrence in the input does
not always pass through to the output.  In `"%3&#x32;"` the percent escape
`%3` is unrecognized in the input (`3` is followed by `&`, not a second hex
digit), yet the entity pass first rewrites `&#x32;` to `2`, after which the
percent pass sees `%32` and decodes it: the output is `"2"`, with no `%`
left.  Likewise `\q`, which is not one of the markdown escapes
`\[`, `\]`, `\_` the claim allows to be rewritten, is unescaped to `q` by
the third replace. -/
theorem decode_rewrites_unrecognized_sequences :
    decodeAndCleanText ("%3&#x32;") = "2" ∧
    ('%' ∉ (decodeAndCleanText ("%3&#x32;")).data) ∧
    decodeAndCleanText ("\\q") = "q" := by decide

/-- C9 amended: `decodeAndCleanText` is total (never throws), and the
pass-through of unrecognized occurrences holds per position across an
arbitrary input as long as every trigger occurrence in it is unrecognized:
if at every `&` the entity regex either fails or matches a name outside the
table (so the callback returns the match itself), every `\` is final or
precedes a line terminator, and no `%` is followed by two hex digits, then
the input — with its unrecognized entities and escapes at arbitrary
positions — is returned verbatim.  The restriction to inputs whose trigger
occurrences are all unrecognized is forced by the counterexample: one
recognized rewrite can turn a neighbouring unrecognized escape into a
recognized one for a later pass. -/
theorem decode_identity_on_unrecognized_occurrences :
    ∀ s : String, allOccurrencesUntouched s.data = true →
      decodeAndCleanText s = s := by
  intro s h
  show (⟨percentDecode (backslashUnescape (bracketUnescape
    (entityPass s.data)))⟩ : String) = s
  rw [show entityPass s.data = s.data from
      entityPassAux_untouched _ _ (le_refl _) h,
    bracketUnescape_untouched _ h, backslashUnescape_untouched _ h,
    percentDecode_untouched _ h]

theorem decode_identity_on_unrecognized_occurrences_witness :
    allOccurrencesUntouched ("a&foo;b %2G \\").data = true ∧
    decodeAndCleanText ("a&foo;b %2G \\") = "a&foo;b %2G \\" :=
  ⟨by decide,
    decode_identity_on_unrecognized_occurrences ("a&foo;b %2G \\") (by decide)⟩

/-! ## C1: the dedup-key invariant of the append engine -/

theorem fragMatches_iff (h c : String) :
    fragMatches h c = true ↔ dedupKey h = dedupKey c := by
  simp [fragMatches, dedupKey, Prod.ext_iff]

theorem sortDescByTime_perm (l : List String) : List.Perm (sortDescByTime l) l :=
  List.perm_insertionSort _ l

theorem noDupKeys_of_perm {l l' : List String} (hp : List.Perm l l')
    (h : NoDupKeys l) : NoDupKeys l' := (hp.map dedupKey).nodup h

theorem appendHighlightPure_noDupKeys (frags : List String) (c : String)
    (h : NoDupKeys frags) : NoDupKeys (appendHighlightPure frags c) := by
  unfold appendHighlightPure
  split
  · exact h
  · rename_i hany
    unfold NoDupKeys
    rw [List.map_append, List.nodup_append]
    refine ⟨h, List.nodup_singleton _, ?_⟩
    intro x hx hx'
    rcases List.mem_map.mp hx with ⟨f, hf, rfl⟩
    have he : dedupKey f = dedupKey c := by
      simpa using List.mem_singleton.mp hx'
    exact hany (List.any_eq_true.mpr ⟨f, hf, (fragMatches_iff f c).mpr he⟩)

theorem appendStep_noDupKeys (frags : List String) (c : String)
    (h : NoDupKeys frags) : NoDupKeys (appendStep frags c) :=
  noDupKeys_of_perm (sortDescByTime_perm _).symm (appendHighlightPure_noDupKeys frags c h)

theorem foldl_appendStep_noDupKeys (cs : List String) (frags : List String)
    (h : NoDupKeys frags) : NoDupKeys (cs.foldl appendStep frags) := by
  induction cs generalizing frags with
  | nil => exact h
  | cons c cs ih => exact ih _ (appendStep_noDupKeys frags c h)

theorem countP_pred_le_one_of_nodup {α : Type} [DecidableEq α] (L : List α)
    (h : L.Nodup) (k : α) : L.countP (fun x => decide (x = k)) ≤ 1 := by
  induction L with
  | nil => simp
  | cons a L ih =>
    rw [List.countP_cons]
    rcases List.nodup_cons.mp h with ⟨hna, hnd⟩
    by_cases hak : a = k
    · subst hak
      have hz : L.countP (fun x => decide (x = a)) = 0 := by
        rw [List.countP_eq_zero]
        intro x hx
        simp only [decide_eq_true_eq]
        intro he
        exact hna (he ▸ hx)
      simp [hz]
    · simpa [hak] using ih hnd

theorem countP_key_le_one_of_noDupKeys (l : List String) (h : NoDupKeys l)
    (k : String × String) : l.countP (fun f => decide (dedupKey f = k)) ≤ 1 := by
  have h1 : l.countP (fun f => decide (dedupKey f = k)) =
      (l.map dedupKey).countP (fun x => decide (x = k)) := by
    rw [List.countP_map]
    rfl
  rw [h1]
  exact countP_pred_le_one_of_nodup _ h k

/-- C1 counterexample: the concatenating append of the highlight pipeline
(`appendHighlightsToNote`) performs no content dedup: delivering the same
rendered fragment (as produced by `syncGroupedHighlights`, i.e. followed by
the trimmed fragment delimiter) to the same note twice leaves its body with
two fragments carrying the same dedup key, so a dedup key does not appear
at most once in a note body. -/
theorem append_concat_duplicates_fragment :
    ¬ ((parseHighlights (appendHighlightsToNote
          (appendHighlightsToNote ("") ("> q\n> (2024-01-05 10:00)\n\n---"))
          ("> q\n> (2024-01-05 10:00)\n\n---"))).countP
        (fun f => decide (dedupKey f = dedupKey ("> q\n> (2024-01-05 10:00)"))) ≤ 1) := by
  decide

/-- C1 amended: the dedup-key-based append operation
(`appendHighlightToNote` of src/sync.ts) does enforce the invariant: a
candidate whose dedup key is already present leaves the fragment list
unchanged, and starting from a fragment list with pairwise-distinct dedup
keys, any sequence of append calls (each one dedup check, optional push,
newest-first re-sort) keeps the keys pairwise distinct, so each dedup key
occurs at most once.  The plain concatenating append of the highlight
pipeline (`appendHighlightsToNote`) does not enforce it (see the
counterexample). -/
theorem append_dedup_at_most_once :
    (∀ (frags : List String) (c : String),
      (∃ f ∈ frags, dedupKey f = dedupKey c) → appendHighlightPure frags c = frags) ∧
    (∀ (frags cs : List String), NoDupKeys frags →
      NoDupKeys (cs.foldl appendStep frags) ∧
      ∀ k, (cs.foldl appendStep frags).countP (fun f => decide (dedupKey f = k)) ≤ 1) := by
  constructor
  · intro frags c hex
    unfold appendHighlightPure
    rw [if_pos]
    rw [List.any_eq_true]
    obtain ⟨f, hf, he⟩ := hex
    exact ⟨f, hf, (fragMatches_iff f c).mpr he⟩
  · intro frags cs h
    have hnd := foldl_appendStep_noDupKeys cs frags h
    exact ⟨hnd, fun k => countP_key_le_one_of_noDupKeys _ hnd k⟩

theorem append_dedup_at_most_once_witness :
    appendHighlightPure ["> q\n> (2024-01-05 10:00)"] ("> q\n> (2024-01-05 10:00)") =
      ["> q\n> (2024-01-05 10:00)"] ∧
    ((["> q\n> (2024-01-05 10:00)", "> q\n> (2024-01-05 10:00)"].foldl appendStep
        []).countP
      (fun f => decide (dedupKey f = dedupKey ("> q\n> (2024-01-05 10:00)"))) ≤ 1) := by
  constructor
  · exact append_dedup_at_most_once.1 _ _
      ⟨"> q\n> (2024-01-05 10:00)", by decide, rfl⟩
  · exact (append_dedup_at_most_once.2 [] _ (by decide)).2 _

/-! ## C10: fragments without a timestamp token -/

theorem matchTsAt_ne_nil {cs t : List Char} (h : matchTsAt cs = some t) : t ≠ [] := by
  rw [matchTsAt.eq_def] at h
  split at h
  · split at h
    · injection h with he
      subst he
      simp
    · cases h
  · cases h

theorem findTs_ne_nil {cs t : List Char} (h : findTs cs = some t) : t ≠ [] := by
  induction cs with
  | nil => cases h
  | cons c rest ih =>
    rw [findTs] at h
    split at h
    · rename_i t' hm
      injection h with he
      subst he
      exact matchTsAt_ne_nil hm
    · exact ih h

theorem dedupTime_empty_iff (s : String) :
    dedupTime s = "" ↔ findTs s.data = none := by
  cases hf : findTs s.data with
  | none => simp [dedupTime, hf]
  | some t =>
    simp only [dedupTime, hf]
    exact iff_of_false (fun h => (findTs_ne_nil hf) (congrArg String.data h))
      (fun h => by cases h)

theorem empty_string_le (s : String) : "" ≤ s := by
  by_contra hlt
  rw [not_le, String.lt_iff_toList_lt, String.toList_empty] at hlt
  generalize s.toList = l at hlt
  cases hlt

instance : IsTotal String (fun a b => dedupTime b ≤ dedupTime a) :=
  ⟨fun a b => le_total (dedupTime b) (dedupTime a)⟩

instance : IsTrans String (fun a b => dedupTime b ≤ dedupTime a) :=
  ⟨fun _ _ _ hab hbc => le_trans hbc hab⟩

theorem sortDescByTime_sorted (l : List String) :
    (sortDescByTime l).Pairwise (fun a b => dedupTime b ≤ dedupTime a) :=
  List.sorted_insertionSort _ l

/-- C10: a fragment with no embedded `(YYYY-MM-DD HH:MM)` token gets the
empty string as the time component of its dedup key; such a candidate is
judged already-present exactly when some existing fragment that also lacks
a token has the same first line; and after the newest-first re-sort, once a
token-less fragment appears, every later fragment is token-less too — i.e.
token-less fragments sort after every token-bearing fragment. -/
theorem tokenless_fragment_behavior :
    (∀ c : String, findTs c.data = none → dedupTime c = "") ∧
    (∀ (frags : List String) (c : String), findTs c.data = none →
      ((frags.any (fun f => fragMatches f c)) = true ↔
        ∃ f ∈ frags, findTs f.data = none ∧ firstLine f = firstLine c)) ∧
    (∀ frags : List String, (sortDescByTime frags).Pairwise
      (fun a b => dedupTime a = "" → dedupTime b = "")) := by
  refine ⟨?_, ?_, ?_⟩
  · intro c h
    exact (dedupTime_empty_iff c).mpr h
  · intro frags c hc
    have hce : dedupTime c = "" := (dedupTime_empty_iff c).mpr hc
    rw [List.any_eq_true]
    constructor
    · rintro ⟨f, hf, hm⟩
      rw [fragMatches_iff] at hm
      have h1 : dedupTime f = dedupTime c := congrArg Prod.fst hm
      have h2 : firstLine f = firstLine c := congrArg Prod.snd hm
      exact ⟨f, hf, (dedupTime_empty_iff f).mp (h1.trans hce), h2⟩
    · rintro ⟨f, hf, hnone, hline⟩
      refine ⟨f, hf, (fragMatches_iff f c).mpr ?_⟩
      unfold dedupKey
      rw [(dedupTime_empty_iff f).mpr hnone, hce, hline]
  · intro frags
    refine (sortDescByTime_sorted frags).imp ?_
    intro a b hle ha
    rw [ha] at hle
    exact le_antisymm hle (empty_string_le _)

theorem tokenless_fragment_behavior_witness :
    dedupTime ("no token here") = "" ∧
    ((["x", "> q\n> (2024-01-05 10:00)"].any
        (fun f => fragMatches f ("no token here"))) = true ↔
      ∃ f ∈ ["x", "> q\n> (2024-01-05 10:00)"],
        findTs f.data = none ∧ firstLine f = firstLine ("no token here")) ∧
    (sortDescByTime ["a", "> q\n> (2024-01-05 10:00)"]).Pairwise
      (fun a b => dedupTime a = "" → dedupTime b = "") :=
  ⟨tokenless_fragment_behavior.1 ("no token here") (by decide),
    tokenless_fragment_behavior.2.1 _ ("no token here") (by decide),
    tokenless_fragment_behavior.2.2 _⟩

/-! ## C3: merging title-collided notes -/

/-- C3: when the exact-title search returns two or more matches (modelled:
the matches are exactly the notes of the store whose title is the searched
title, in store order), the merge writes the delimiter-join of all matched
bodies in search-result order into the first match, preserving its title
and relocating it to the target folder, deletes every other match, returns
the first match, and exactly one note with that title survives. -/
theorem merge_notes_concatenates_and_deletes :
    ∀ (store : List JNote) (firstNote : JNote) (rest : List JNote) (tf T : String),
      store.filter (fun n => decide (n.title = T)) = firstNote :: rest →
      (store.map (fun n => n.id)).Nodup →
      rest ≠ [] →
      ((mergeHighlightNotes store (firstNote :: rest) tf).2 = some firstNote ∧
        (∃ n ∈ (mergeHighlightNotes store (firstNote :: rest) tf).1,
          n.id = firstNote.id ∧ n.title = firstNote.title ∧ n.parent_id = tf ∧
          n.body = joinDelim ((firstNote :: rest).map (fun m => m.body))) ∧
        (∀ r ∈ rest, ∀ n ∈ (mergeHighlightNotes store (firstNote :: rest) tf).1,
          n.id ≠ r.id) ∧
        ((mergeHighlightNotes store (firstNote :: rest) tf).1.filter
          (fun n => decide (n.title = T))).length = 1) := by
  intro store firstNote rest tf T hfilter hids hrest
  have hsub : List.Sublist (firstNote :: rest) store := by
    rw [← hfilter]
    exact List.filter_sublist store
  have hmatchedids : ((firstNote :: rest).map (fun n => n.id)).Nodup :=
    List.Nodup.sublist (List.Sublist.map _ hsub) hids
  have hfirstmem : firstNote ∈ store := hsub.mem (List.mem_cons_self _ _)
  have hfirstT : firstNote.title = T := by
    have : firstNote ∈ store.filter (fun n => decide (n.title = T)) := by
      rw [hfilter]
      exact List.mem_cons_self _ _
    simpa using (List.mem_filter.mp this).2
  have hfirstnotin : firstNote.id ∉ rest.map (fun n => n.id) := by
    have h' := hmatchedids
    rw [List.map_cons, List.nodup_cons] at h'
    exact h'.1
  have hinj := List.inj_on_of_nodup_map hids
  have hmemT : ∀ n ∈ store, n.title = T → n = firstNote ∨ n ∈ rest := by
    intro n hn hT
    have : n ∈ firstNote :: rest := by
      rw [← hfilter]
      exact List.mem_filter.mpr ⟨hn, by simpa using hT⟩
    simpa using this
  -- shorthand for the two stages of the merge
  have hred : mergeHighlightNotes store (firstNote :: rest) tf =
      ((store.map (fun n =>
          if n.id = firstNote.id then
            { n with body := joinDelim ((firstNote :: rest).map (fun m => m.body)), title := firstNote.title, parent_id := tf }
          else n)).filter
        (fun n => !((rest.map (fun r => r.id)).contains n.id)), some firstNote) := rfl
  rw [hred]
  have hcontains : ∀ i : String,
      ((rest.map (fun r => r.id)).contains i = true) ↔ i ∈ rest.map (fun r => r.id) := by
    intro i
    exact List.elem_iff
  refine ⟨rfl, ?_, ?_, ?_⟩
  · refine ⟨{ firstNote with body := joinDelim ((firstNote :: rest).map (fun m => m.body)), title := firstNote.title, parent_id := tf }, ?_, rfl, rfl, rfl, rfl⟩
    refine List.mem_filter.mpr ⟨?_, ?_⟩
    · have := List.mem_map_of_mem (fun n =>
        if n.id = firstNote.id then
          { n with body := joinDelim ((firstNote :: rest).map (fun m => m.body)), title := firstNote.title, parent_id := tf }
        else n) hfirstmem
      simpa using this
    · simp only [Bool.not_eq_true']
      rw [← Bool.not_eq_true]
      intro hc
      exact hfirstnotin ((hcontains _).mp hc)
  · intro r hr n hn hne
    have hq := (List.mem_filter.mp hn).2
    simp only [Bool.not_eq_true'] at hq
    rw [← Bool.not_eq_true] at hq
    exact hq ((hcontains _).mpr (hne ▸ List.mem_map_of_mem (fun x => x.id) hr))
  · rw [← List.countP_eq_length_filter, List.countP_filter, List.countP_map]
    have hcongr : List.countP ((fun n => decide (n.title = T) &&
        !((rest.map (fun r => r.id)).contains n.id)) ∘ (fun n =>
          if n.id = firstNote.id then
            { n with body := joinDelim ((firstNote :: rest).map (fun m => m.body)), title := firstNote.title, parent_id := tf }
          else n)) store =
        List.countP (fun n => decide (n.id = firstNote.id)) store := by
      apply List.countP_congr
      intro n hn
      simp only [Function.comp_apply, Bool.and_eq_true, decide_eq_true_eq,
        Bool.not_eq_true']
      by_cases hid : n.id = firstNote.id
      · have hn' : n = firstNote := hinj hn hfirstmem hid
        subst hn'
        refine iff_of_true ⟨?_, ?_⟩ hid
        · rw [if_pos hid]
          exact hfirstT
        · rw [if_pos hid]
          rw [Bool.eq_false_iff]
          intro hc
          exact hfirstnotin ((hcontains _).mp hc)
      · rw [if_neg hid]
        refine iff_of_false ?_ hid
        rintro ⟨hT, hnc⟩
        rcases hmemT n hn hT with rfl | hmem
        · exact hid rfl
        · rw [Bool.eq_false_iff] at hnc
          exact hnc ((hcontains _).mpr (List.mem_map_of_mem (fun x => x.id) hmem))
    rw [hcongr]
    have hle : List.countP (fun n => decide (n.id = firstNote.id)) store ≤ 1 := by
      have h1 : List.countP (fun n => decide (n.id = firstNote.id)) store =
          (store.map (fun n => n.id)).countP (fun i => decide (i = firstNote.id)) := by
        rw [List.countP_map]
        rfl
      rw [h1]
      exact countP_pred_le_one_of_nodup _ hids _
    have hpos : 0 < List.countP (fun n => decide (n.id = firstNote.id)) store :=
      List.countP_pos_iff.mpr ⟨firstNote, hfirstmem, by simp⟩
    omega

theorem merge_notes_concatenates_and_deletes_witness :
    (mergeHighlightNotes
        [⟨"n1", "Omnivore Highlights 2024-01-05", "A", "f0"⟩,
          ⟨"n3", "Other", "C", "f0"⟩,
          ⟨"n2", "Omnivore Highlights 2024-01-05", "B", "f1"⟩]
        [⟨"n1", "Omnivore Highlights 2024-01-05", "A", "f0"⟩,
          ⟨"n2", "Omnivore Highlights 2024-01-05", "B", "f1"⟩] ("f0")).2 =
      some ⟨"n1", "Omnivore Highlights 2024-01-05", "A", "f0"⟩ ∧
      (∃ n ∈ (mergeHighlightNotes
        [⟨"n1", "Omnivore Highlights 2024-01-05", "A", "f0"⟩,
          ⟨"n3", "Other", "C", "f0"⟩,
          ⟨"n2", "Omnivore Highlights 2024-01-05", "B", "f1"⟩]
        [⟨"n1", "Omnivore Highlights 2024-01-05", "A", "f0"⟩,
          ⟨"n2", "Omnivore Highlights 2024-01-05", "B", "f1"⟩] ("f0")).1,
        n.id = "n1" ∧ n.title = "Omnivore Highlights 2024-01-05" ∧
        n.parent_id = "f0" ∧ n.body = joinDelim ["A", "B"]) ∧
      (∀ r ∈ [(⟨"n2", "Omnivore Highlights 2024-01-05", "B", "f1"⟩ : JNote)],
        ∀ n ∈ (mergeHighlightNotes
          [⟨"n1", "Omnivore Highlights 2024-01-05", "A", "f0"⟩,
            ⟨"n3", "Other", "C", "f0"⟩,
            ⟨"n2", "Omnivore Highlights 2024-01-05", "B", "f1"⟩]
          [⟨"n1", "Omnivore Highlights 2024-01-05", "A", "f0"⟩,
            ⟨"n2", "Omnivore Highlights 2024-01-05", "B", "f1"⟩] ("f0")).1,
          n.id ≠ r.id) ∧
      ((mergeHighlightNotes
        [⟨"n1", "Omnivore Highlights 2024-01-05", "A", "f0"⟩,
          ⟨"n3", "Other", "C", "f0"⟩,
          ⟨"n2", "Omnivore Highlights 2024-01-05", "B", "f1"⟩]
        [⟨"n1", "Omnivore Highlights 2024-01-05", "A", "f0"⟩,
          ⟨"n2", "Omnivore Highlights 2024-01-05", "B", "f1"⟩] ("f0")).1.filter
        (fun n => decide (n.title = "Omnivore Highlights 2024-01-05"))).length = 1 := by
  have h := merge_notes_concatenates_and_deletes
    [⟨"n1", "Omnivore Highlights 2024-01-05", "A", "f0"⟩,
      ⟨"n3", "Other", "C", "f0"⟩,
      ⟨"n2", "Omnivore Highlights 2024-01-05", "B", "f1"⟩]
    ⟨"n1", "Omnivore Highlights 2024-01-05", "A", "f0"⟩
    [⟨"n2", "Omnivore Highlights 2024-01-05", "B", "f1"⟩]
    ("f0") ("Omnivore Highlights 2024-01-05") (by decide) (by decide) (by decide)
  exact h

/-! ## C6: the byDate grouping policy -/

theorem addToGroups_step (keyOf : Highlight → String) (gs : List (String × List Highlight))
    (pref : List Highlight) (h : Highlight)
    (h1 : (gs.map (fun g => g.1)).Nodup)
    (h2 : ∀ g ∈ gs, g.2 = pref.filter (fun x => decide (keyOf x = g.1)) ∧ g.2 ≠ [])
    (h3 : ∀ x ∈ pref, ∃ g ∈ gs, g.1 = keyOf x) :
    ((addToGroups gs (keyOf h) h).map (fun g => g.1)).Nodup ∧
    (∀ g ∈ addToGroups gs (keyOf h) h,
      g.2 = (pref ++ [h]).filter (fun x => decide (keyOf x = g.1)) ∧ g.2 ≠ []) ∧
    (∀ x ∈ pref ++ [h], ∃ g ∈ addToGroups gs (keyOf h) h, g.1 = keyOf x) := by
  unfold addToGroups
  split
  · rename_i hany
    rw [List.any_eq_true] at hany
    have hfst : ∀ g : String × List Highlight,
        ((fun g => if g.1 = keyOf h then (g.1, g.2 ++ [h]) else g) g).1 = g.1 := by
      intro g
      dsimp only
      split <;> rfl
    refine ⟨?_, ?_, ?_⟩
    · rw [List.map_map]
      have he : ((fun g : String × List Highlight => g.1) ∘
          (fun g => if g.1 = keyOf h then (g.1, g.2 ++ [h]) else g)) =
          (fun g : String × List Highlight => g.1) := funext (fun g => hfst g)
      rw [he]
      exact h1
    · intro g' hg'
      rcases List.mem_map.mp hg' with ⟨g, hg, rfl⟩
      by_cases hk : g.1 = keyOf h
      · rw [if_pos hk]
        constructor
        · rw [List.filter_append]
          have hfh : [h].filter (fun x => decide (keyOf x = g.1)) = [h] := by
            simp [hk.symm]
          rw [hfh, ← (h2 g hg).1]
        · simp
      · rw [if_neg hk]
        constructor
        · rw [List.filter_append]
          have hfh : [h].filter (fun x => decide (keyOf x = g.1)) = [] := by
            simp only [List.filter_eq_nil_iff, List.mem_singleton, decide_eq_true_eq]
            rintro x rfl he
            exact hk he.symm
          rw [hfh, List.append_nil]
          exact (h2 g hg).1
        · exact (h2 g hg).2
    · intro x hx
      rcases List.mem_append.mp hx with hx | hx
      · rcases h3 x hx with ⟨g, hg, he⟩
        exact ⟨_, List.mem_map_of_mem _ hg, (hfst g).trans he⟩
      · rcases List.mem_singleton.mp hx with rfl
        rcases hany with ⟨g, hg, he⟩
        exact ⟨_, List.mem_map_of_mem _ hg, (hfst g).trans (by simpa using he)⟩
  · rename_i hany
    have hnok : ∀ g ∈ gs, g.1 ≠ keyOf h := by
      intro g hg he
      exact hany (List.any_eq_true.mpr ⟨g, hg, by simpa using he⟩)
    refine ⟨?_, ?_, ?_⟩
    · rw [List.map_append, List.nodup_append]
      refine ⟨h1, by simp, ?_⟩
      intro a ha ha'
      rcases List.mem_map.mp ha with ⟨g, hg, rfl⟩
      simp only [List.map_cons, List.map_nil, List.mem_singleton] at ha'
      exact hnok g hg ha'
    · intro g' hg'
      rcases List.mem_append.mp hg' with hg | hg
      · constructor
        · rw [List.filter_append]
          have hfh : [h].filter (fun x => decide (keyOf x = g'.1)) = [] := by
            simp only [List.filter_eq_nil_iff, List.mem_singleton, decide_eq_true_eq]
            rintro x rfl he
            exact hnok g' hg he.symm
          rw [hfh, List.append_nil]
          exact (h2 g' hg).1
        · exact (h2 g' hg).2
      · rcases List.mem_singleton.mp hg with rfl
        constructor
        · rw [List.filter_append]
          have hpref : pref.filter (fun x => decide (keyOf x = keyOf h)) = [] := by
            rw [List.filter_eq_nil_iff]
            intro x hx
            simp only [decide_eq_true_eq]
            intro he
            rcases h3 x hx with ⟨g, hg, hge⟩
            exact hnok g hg (hge.trans he)
          rw [hpref]
          simp
        · simp
    · intro x hx
      rcases List.mem_append.mp hx with hx | hx
      · rcases h3 x hx with ⟨g, hg, he⟩
        exact ⟨g, List.mem_append_left _ hg, he⟩
      · rw [List.mem_singleton.mp hx]
        exact ⟨(keyOf h, [h]), List.mem_append_right _ (List.mem_singleton_self _), rfl⟩

theorem groupByKey_foldl_invariant (keyOf : Highlight → String) :
    ∀ (hs : List Highlight) (gs : List (String × List Highlight)) (pref : List Highlight),
      (gs.map (fun g => g.1)).Nodup →
      (∀ g ∈ gs, g.2 = pref.filter (fun x => decide (keyOf x = g.1)) ∧ g.2 ≠ []) →
      (∀ x ∈ pref, ∃ g ∈ gs, g.1 = keyOf x) →
      (((hs.foldl (fun gs h => addToGroups gs (keyOf h) h) gs).map (fun g => g.1)).Nodup ∧
        (∀ g ∈ hs.foldl (fun gs h => addToGroups gs (keyOf h) h) gs,
          g.2 = (pref ++ hs).filter (fun x => decide (keyOf x = g.1)) ∧ g.2 ≠ []) ∧
        (∀ x ∈ pref ++ hs, ∃ g ∈ hs.foldl (fun gs h => addToGroups gs (keyOf h) h) gs,
          g.1 = keyOf x)) := by
  intro hs
  induction hs with
  | nil =>
    intro gs pref h1 h2 h3
    simp only [List.foldl_nil, List.append_nil]
    exact ⟨h1, h2, h3⟩
  | cons h hs ih =>
    intro gs pref h1 h2 h3
    have step := addToGroups_step keyOf gs pref h h1 h2 h3
    have ihr := ih (addToGroups gs (keyOf h) h) (pref ++ [h]) step.1 step.2.1 step.2.2
    simpa [List.append_assoc] using ihr

theorem groupByKey_props (keyOf : Highlight → String) (hs : List Highlight) :
    ((groupByKey keyOf hs).map (fun g => g.1)).Nodup ∧
    (∀ g ∈ groupByKey keyOf hs,
      g.2 = hs.filter (fun x => decide (keyOf x = g.1)) ∧ g.2 ≠ []) := by
  have h := groupByKey_foldl_invariant keyOf hs [] [] (by simp) (by simp) (by simp)
  have h21 := h.2.1
  simp only [List.nil_append] at h21
  exact ⟨h.1, h21⟩

instance : IsTotal Highlight (fun a b => a.createdAt ≤ b.createdAt) :=
  ⟨fun a b => le_total a.createdAt b.createdAt⟩

instance : IsTrans Highlight (fun a b => a.createdAt ≤ b.createdAt) :=
  ⟨fun _ _ _ hab hbc => le_trans hab hbc⟩

theorem sortAscByCreated_sorted (l : List Highlight) :
    (sortAscByCreated l).Pairwise (fun a b => a.createdAt ≤ b.createdAt) :=
  List.sorted_insertionSort _ l

theorem sortAscByCreated_perm (l : List Highlight) :
    List.Perm (sortAscByCreated l) l := List.perm_insertionSort _ l

/-- C6: under the byDate grouping policy, each group member carries the
group key produced from its creation timestamp by the timezone/day
formatter; and the order in which a date group is rendered into its note
(`orderGroupForNote`) is the concatenation of per-article blocks —
non-empty, one article id per block, distinct ids across blocks, each block
ascending by creation time — so highlights of one article are contiguous
and oldest-first inside their sub-group. -/
theorem byDate_grouping_key_contiguous_sorted :
    ∀ (zoneDay : Nat → String) (hs : List Highlight) (k : String) (g : List Highlight),
      (k, g) ∈ groupHighlights hs "byDate" zoneDay →
      ((∀ h ∈ g, zoneDay h.createdAt = k) ∧
        orderGroupForNote "byDate" g =
          ((groupByKey (fun h => h.article.id) (sortAscByCreated g)).map
            (fun b => b.2)).flatten ∧
        (∀ b ∈ (groupByKey (fun h => h.article.id) (sortAscByCreated g)).map
            (fun b => b.2),
          b ≠ [] ∧ (∀ h1 ∈ b, ∀ h2 ∈ b, h1.article.id = h2.article.id) ∧
          b.Pairwise (fun h1 h2 => h1.createdAt ≤ h2.createdAt)) ∧
        ((groupByKey (fun h => h.article.id) (sortAscByCreated g)).map
            (fun b => b.2)).Pairwise
          (fun b1 b2 => ∀ h1 ∈ b1, ∀ h2 ∈ b2, h1.article.id ≠ h2.article.id)) := by
  intro zoneDay hs k g hmem
  have hkey := groupByKey_props
    (fun h => if ("byDate" : String) = "byArticle" then h.article.id
      else zoneDay h.createdAt) hs
  have hbucket : g = hs.filter
      (fun x => decide ((if ("byDate" : String) = "byArticle" then x.article.id
        else zoneDay x.createdAt) = k)) := (hkey.2 (k, g) hmem).1
  have haid := groupByKey_props (fun h => h.article.id) (sortAscByCreated g)
  refine ⟨?_, rfl, ?_, ?_⟩
  · intro h hh
    rw [hbucket] at hh
    have := (List.mem_filter.mp hh).2
    simp only [decide_eq_true_eq] at this
    rw [if_neg (by decide)] at this
    exact this
  · intro b hb
    rcases List.mem_map.mp hb with ⟨gp, hgp, rfl⟩
    have hf := (haid.2 gp hgp).1
    refine ⟨(haid.2 gp hgp).2, ?_, ?_⟩
    · intro h1 hh1 h2 hh2
      rw [hf] at hh1 hh2
      have e1 := (List.mem_filter.mp hh1).2
      have e2 := (List.mem_filter.mp hh2).2
      simp only [decide_eq_true_eq] at e1 e2
      rw [e1, e2]
    · rw [hf]
      exact List.Pairwise.sublist (List.filter_sublist _) (sortAscByCreated_sorted g)
  · have hnd := haid.1
    rw [List.pairwise_map]
    have hpair : (groupByKey (fun h => h.article.id) (sortAscByCreated g)).Pairwise
        (fun g1 g2 => g1.1 ≠ g2.1) := by
      have := hnd
      rw [List.Nodup, List.pairwise_map] at this
      exact this
    refine List.Pairwise.imp_of_mem ?_ hpair
    intro g1 g2 hg1 hg2 hne h1 hh1 h2 hh2
    have e1 := (List.mem_filter.mp ((haid.2 g1 hg1).1 ▸ hh1)).2
    have e2 := (List.mem_filter.mp ((haid.2 g2 hg2).1 ▸ hh2)).2
    simp only [decide_eq_true_eq] at e1 e2
    rw [e1, e2]
    exact hne

theorem byDate_grouping_key_contiguous_sorted_witness :
    (("2024-01-05", [⟨"h1", ⟨"artA", "A"⟩, 10, none⟩, ⟨"h2", ⟨"artB", "B"⟩, 5, none⟩])
        ∈ groupHighlights
          [⟨"h1", ⟨"artA", "A"⟩, 10, none⟩, ⟨"h2", ⟨"artB", "B"⟩, 5, none⟩]
          "byDate" (fun _ => "2024-01-05")) ∧
    ((∀ h ∈ [(⟨"h1", ⟨"artA", "A"⟩, 10, none⟩ : Highlight),
        ⟨"h2", ⟨"artB", "B"⟩, 5, none⟩],
      (fun _ : Nat => "2024-01-05") h.createdAt = "2024-01-05") ∧
      orderGroupForNote "byDate"
          [⟨"h1", ⟨"artA", "A"⟩, 10, none⟩, ⟨"h2", ⟨"artB", "B"⟩, 5, none⟩] =
        ((groupByKey (fun h => h.article.id) (sortAscByCreated
          [⟨"h1", ⟨"artA", "A"⟩, 10, none⟩, ⟨"h2", ⟨"artB", "B"⟩, 5, none⟩])).map
            (fun b => b.2)).flatten ∧
      (∀ b ∈ (groupByKey (fun h => h.article.id) (sortAscByCreated
          [⟨"h1", ⟨"artA", "A"⟩, 10, none⟩, ⟨"h2", ⟨"artB", "B"⟩, 5, none⟩])).map
            (fun b => b.2),
        b ≠ [] ∧ (∀ h1 ∈ b, ∀ h2 ∈ b, h1.article.id = h2.article.id) ∧
        b.Pairwise (fun h1 h2 => h1.createdAt ≤ h2.createdAt)) ∧
      ((groupByKey (fun h => h.article.id) (sortAscByCreated
          [⟨"h1", ⟨"artA", "A"⟩, 10, none⟩, ⟨"h2", ⟨"artB", "B"⟩, 5, none⟩])).map
            (fun b => b.2)).Pairwise
        (fun b1 b2 => ∀ h1 ∈ b1, ∀ h2 ∈ b2, h1.article.id ≠ h2.article.id)) := by
  refine ⟨by decide, ?_⟩
  exact byDate_grouping_key_contiguous_sorted (fun _ => "2024-01-05")
    [⟨"h1", ⟨"artA", "A"⟩, 10, none⟩, ⟨"h2", ⟨"artB", "B"⟩, 5, none⟩]
    "2024-01-05"
    [⟨"h1", ⟨"artA", "A"⟩, 10, none⟩, ⟨"h2", ⟨"artB", "B"⟩, 5, none⟩]
    (by decide)

end OmnivoreSync
